import Mathlib

/-!
Verification of the Tic Tac Toe core (rules evaluator, minimax move search,
and the game-session controller) of the interactive tic-tac-toe platform.

The definitions below are a shallow embedding of the JavaScript source in
`src/tic_tac_toe_frontend/src/App.js`:

* `calculateWinner` embeds the function of the same name (lines 10-30);
* `getAvailableMoves` embeds lines 32-38;
* `minimaxF` embeds the recursive `minimax` (lines 44-92); the JavaScript
  recursion has no explicit fuel, so the embedding threads a fuel argument
  that is structurally decreasing, and `minimax` instantiates the fuel at
  `squares.length + 1`, which is proved sufficient (fuel-irrelevance below);
* `AppState` with `handleSquareClick`, `aiMoveEffect`, `startNewRound`,
  `resetGame` embeds the stateful `App` component (lines 95-185); the
  presentation-only `statusBanner` string is not modelled.
-/

namespace TicTacToe

/-- A player mark, `'X'` or `'O'` in the JavaScript source. -/
inductive Mark where
  | X : Mark
  | O : Mark
deriving DecidableEq, Fintype

/-- A board is the `squares` array: 9 cells, each `null` (`none`) or a mark. -/
abbrev Board := List (Option Mark)

/-- Reading `squares[i]`; out-of-range reads give `undefined`, modelled `none`. -/
def cell (squares : Board) (i : Nat) : Option Mark :=
  squares.getD i none

/-- The static table of the 8 winning lines, in source order:
rows, then columns, then diagonals (App.js lines 11-22). -/
def lines : List (Nat × Nat × Nat) :=
  [(0, 1, 2), (3, 4, 5), (6, 7, 8),
   (0, 3, 6), (1, 4, 7), (2, 5, 8),
   (0, 4, 8), (2, 4, 6)]

/-- The `for (const [a,b,c] of lines)` loop in `calculateWinner`:
return `squares[a]` at the first line whose cells are equal and non-empty. -/
def winnerAux (squares : Board) : List (Nat × Nat × Nat) → Option Mark
  | [] => none
  | (a, b, c) :: rest =>
    if (cell squares a).isSome ∧ cell squares a = cell squares b ∧
        cell squares b = cell squares c then
      cell squares a
    else
      winnerAux squares rest

/-- `calculateWinner` (App.js lines 10-30). -/
def calculateWinner (squares : Board) : Option Mark :=
  winnerAux squares lines

/-- `getAvailableMoves` (App.js lines 32-38): the loop over `0 ≤ i < length`
pushing each index whose cell is falsy (empty). -/
def getAvailableMoves (squares : Board) : List Nat :=
  (List.range squares.length).filter (fun i => decide (cell squares i = none))

/-- A `{ index, score }` record pushed into `moves` by the minimax loop. -/
structure MoveScore where
  index : Nat
  score : Int
deriving DecidableEq

/-- The result of `minimax`: `{ score }` at a terminal (no index) or a chosen
`{ index, score }` pair. -/
structure SearchResult where
  index : Option Nat
  score : Int
deriving DecidableEq

/-- Writing `newBoard[idx] = player` on a copy of the board. -/
def placeMark (squares : Board) (idx : Nat) (m : Mark) : Board :=
  squares.set idx (some m)

/-- Comparison `m.score > bestScore` of the maximize loop, where `bestScore`
starts at `-Infinity` (modelled `none`, smaller than every integer). -/
def gtOpt (s : Int) : Option Int → Bool
  | none => true
  | some b => decide (b < s)

/-- Comparison `m.score < bestScore` of the minimize loop, where `bestScore`
starts at `Infinity` (modelled `none`, larger than every integer). -/
def ltOpt (s : Int) : Option Int → Bool
  | none => true
  | some b => decide (s < b)

/-- The best-move selection loop of `minimax` (App.js lines 71-78 and 82-89):
fold over `moves`, replacing the best pair exactly when `better` fires. -/
def bestBy (better : Int → Option Int → Bool) :
    List MoveScore → Option Int → Option MoveScore → Option MoveScore
  | [], _, best => best
  | m :: rest, bestScore, best =>
    if better m.score bestScore then
      bestBy better rest (some m.score) (some m)
    else
      bestBy better rest bestScore best

/-- Packaging `bestMove` as the returned record. The `none` case corresponds
to `moves` being empty, which cannot happen on the path that runs the loops
(the draw check already returned when no move is available). -/
def toResult : Option MoveScore → SearchResult
  | some m => ⟨some m.index, m.score⟩
  | none => ⟨none, 0⟩

/-- Fuel-indexed embedding of `minimax` (App.js lines 44-92). The JavaScript
function recurses on boards with strictly fewer empty cells; the fuel makes
that recursion structural, and fuel-irrelevance is proved below. -/
def minimaxF : Nat → Board → Mark → Mark → Mark → Nat → SearchResult
  | 0, _, _, _, _, _ => ⟨none, 0⟩
  | fuel + 1, squares, currentPlayer, aiPlayer, humanPlayer, depth =>
    if calculateWinner squares = some aiPlayer then
      ⟨none, 10 - (depth : Int)⟩
    else if calculateWinner squares = some humanPlayer then
      ⟨none, (depth : Int) - 10⟩
    else if getAvailableMoves squares = [] then
      ⟨none, 0⟩
    else
      let moves := (getAvailableMoves squares).map (fun idx =>
        MoveScore.mk idx
          (minimaxF fuel (placeMark squares idx currentPlayer)
            (if currentPlayer = aiPlayer then humanPlayer else aiPlayer)
            aiPlayer humanPlayer (depth + 1)).score)
      if currentPlayer = aiPlayer then
        toResult (bestBy gtOpt moves none moves.head?)
      else
        toResult (bestBy ltOpt moves none moves.head?)

/-- `minimax(squares, currentPlayer, aiPlayer, humanPlayer, depth)`: the fuel
`squares.length + 1` strictly exceeds the number of empty cells, which is
enough (proved below), so this computes what the JavaScript recursion does. -/
def minimax (squares : Board) (currentPlayer aiPlayer humanPlayer : Mark)
    (depth : Nat) : SearchResult :=
  minimaxF (squares.length + 1) squares currentPlayer aiPlayer humanPlayer depth

/-- The `chooseMove` interface of the spec: the AI-move effect calls
`minimax(squares, aiPlayer, aiPlayer, humanPlayer)` at depth 0 and uses only
the `index` component (App.js lines 135-136). -/
def chooseMove (squares : Board) (aiMark humanMark : Mark) : Option Nat :=
  (minimax squares aiMark aiMark humanMark 0).index

/-- The number of empty cells, the quantity the recursion decreases. -/
def emptyCount (squares : Board) : Nat :=
  (getAvailableMoves squares).length

/-- `Array(9).fill(null)`: the empty board. -/
def empty9 : Board := List.replicate 9 none

/-- Spec-side predicate: line `t` has all three cells holding mark `m`. -/
def lineFilled (squares : Board) (t : Nat × Nat × Nat) (m : Mark) : Prop :=
  cell squares t.1 = some m ∧ cell squares t.2.1 = some m ∧ cell squares t.2.2 = some m

instance (squares : Board) (t : Nat × Nat × Nat) (m : Mark) :
    Decidable (lineFilled squares t m) :=
  inferInstanceAs (Decidable (_ ∧ _ ∧ _))

/-- Spec-side count of occupied cells. -/
def occupiedCount (squares : Board) : Nat :=
  squares.countP (fun c => c.isSome)

/-- The list `moves` of explored `(index, score)` records built by the
recursive step of `minimax` on a non-terminal board. -/
def explored (squares : Board) (currentPlayer aiPlayer humanPlayer : Mark)
    (depth : Nat) : List MoveScore :=
  (getAvailableMoves squares).map (fun idx =>
    MoveScore.mk idx
      (minimax (placeMark squares idx currentPlayer)
        (if currentPlayer = aiPlayer then humanPlayer else aiPlayer)
        aiPlayer humanPlayer (depth + 1)).score)

/-- The optimal-play playout: starting from a board, repeatedly apply the
move chosen by `minimax` for the side to move, and return the winner at the
end together with the number of plies played. This makes "the loss occurs
after k remaining plies under optimal play" precise. -/
def playF : Nat → Board → Mark → Mark → Mark → Nat → Option Mark × Nat
  | 0, squares, _, _, _, _ => (calculateWinner squares, 0)
  | fuel + 1, squares, currentPlayer, aiPlayer, humanPlayer, depth =>
    match calculateWinner squares with
    | some m => (some m, 0)
    | none =>
      if getAvailableMoves squares = [] then (none, 0)
      else
        match (minimax squares currentPlayer aiPlayer humanPlayer depth).index with
        | some i =>
          let r := playF fuel (placeMark squares i currentPlayer)
            (if currentPlayer = aiPlayer then humanPlayer else aiPlayer)
            aiPlayer humanPlayer (depth + 1)
          (r.1, r.2 + 1)
        | none => (none, 0)

/-- Spec-side reading of a depth-adjusted score from a play-out outcome:
winner `w` after `len` plies starting at `depth` scores `10 - (depth+len)`
for the maximizing player, `(depth+len) - 10` for the minimizing player,
and 0 for a draw. -/
def outcomeScore (w : Option Mark) (len : Nat) (aiPlayer humanPlayer : Mark)
    (depth : Nat) : Int :=
  if w = some aiPlayer then 10 - ((depth + len : Nat) : Int)
  else if w = some humanPlayer then ((depth + len : Nat) : Int) - 10
  else 0

/-- Heuristic enumeration order (centre, corners, edges) used only by the
certificate checker `noLoseF` below; it lists exactly the indices 0..8. -/
def tryOrder : List Nat := [4, 8, 0, 2, 6, 7, 1, 3, 5]

/-- Certificate checker: `noLoseF e o fuel squares cur = true` verifies, by a
short-circuiting search, that the side `e` (with opponent `o`, `cur` to move)
can guarantee that the game never ends with a win for `o`. Soundness and
completeness with respect to the sign of the `minimax` score are proved
below; this is a proof device, not part of the source. -/
def noLoseF (e o : Mark) : Nat → Board → Mark → Bool
  | 0, _, _ => false
  | fuel + 1, squares, cur =>
    match calculateWinner squares with
    | some m => decide (m ≠ o)
    | none =>
      if tryOrder.filter (fun i => decide (cell squares i = none)) = [] then
        true
      else if cur = e then
        (tryOrder.filter (fun i => decide (cell squares i = none))).any
          (fun i => noLoseF e o fuel (placeMark squares i cur) o)
      else
        (tryOrder.filter (fun i => decide (cell squares i = none))).all
          (fun i => noLoseF e o fuel (placeMark squares i cur) e)

/-- Play-outs in which the engine controls side `e` — its moves are chosen by
`minimax` called with `e` as both mover and maximizing player at depth 0 —
and the opponent `o` plays arbitrary legal moves. `X` moves first from the
empty board, and play stops once a winner exists. -/
inductive EngineGame (e o : Mark) : Board → Mark → Prop where
  | start : EngineGame e o empty9 Mark.X
  | engineMove {squares i} :
      EngineGame e o squares e →
      calculateWinner squares = none →
      (minimax squares e e o 0).index = some i →
      EngineGame e o (placeMark squares i e) o
  | oppMove {squares i} :
      EngineGame e o squares o →
      calculateWinner squares = none →
      i ∈ getAvailableMoves squares →
      EngineGame e o (placeMark squares i o) e

/-- Engine-vs-engine play-outs: both sides' moves are chosen by `minimax`
with the mover as maximizing player at depth 0. -/
inductive SelfPlay : Board → Mark → Prop where
  | start : SelfPlay empty9 Mark.X
  | stepX {squares i} :
      SelfPlay squares Mark.X →
      calculateWinner squares = none →
      (minimax squares Mark.X Mark.X Mark.O 0).index = some i →
      SelfPlay (placeMark squares i Mark.X) Mark.O
  | stepO {squares i} :
      SelfPlay squares Mark.O →
      calculateWinner squares = none →
      (minimax squares Mark.O Mark.O Mark.X 0).index = some i →
      SelfPlay (placeMark squares i Mark.O) Mark.X

/-- The game mode of the `App` component: `'AI'` or `'HUMAN'`. -/
inductive Mode where
  | AI : Mode
  | HUMAN : Mode
deriving DecidableEq

/-- The scoreboard `{ X, O, draws }`. -/
structure Scores where
  x : Nat
  o : Nat
  draws : Nat
deriving DecidableEq

/-- The state owned by the `App` component (App.js lines 98-102); the
presentation-only `statusBanner` string is not modelled. -/
structure AppState where
  squares : Board
  xIsNext : Bool
  mode : Mode
  scores : Scores
  gameOver : Bool
deriving DecidableEq

/-- `currentPlayer = xIsNext ? 'X' : 'O'` (App.js line 105). -/
def currentPlayerOf (s : AppState) : Mark :=
  if s.xIsNext then Mark.X else Mark.O

/-- `handleSquareClick` (App.js lines 150-158). -/
def handleSquareClick (s : AppState) (index : Nat) : AppState :=
  if s.gameOver = true ∨ cell s.squares index ≠ none ∨
      (s.mode = Mode.AI ∧ s.xIsNext = false) then
    s
  else
    { s with squares := placeMark s.squares index (currentPlayerOf s),
             xIsNext := !s.xIsNext }

/-- The body of the AI-move effect (App.js lines 132-147): when in AI mode
with the game not over and O to move, play the index chosen by `minimax`
provided that cell is still empty. -/
def aiMoveEffect (s : AppState) : AppState :=
  if s.mode = Mode.AI ∧ s.gameOver = false ∧ s.xIsNext = false then
    match (minimax s.squares Mark.O Mark.O Mark.X 0).index with
    | some i =>
      if cell s.squares i = none then
        { s with squares := placeMark s.squares i Mark.O, xIsNext := true }
      else s
    | none => s
  else s

/-- `startNewRound` (App.js lines 161-167): clears the board, X to move,
keeping the score tally. -/
def startNewRound (s : AppState) : AppState :=
  { s with squares := List.replicate 9 none, xIsNext := true, gameOver := false }

/-- `resetGame` (App.js lines 170-178). -/
def resetGame (_ : AppState) : AppState :=
  { squares := List.replicate 9 none, xIsNext := true, mode := Mode.AI,
    scores := ⟨0, 0, 0⟩, gameOver := false }

/-- The concrete board `[X, X, none, none, O, none, none, none, none]` of the
spec's blocking scenario. -/
def blockBoard : Board :=
  [some Mark.X, some Mark.X, none, none, some Mark.O, none, none, none, none]

/-- A board on which both players have a completed line (unreachable in a
real game): X fills row 0 and O fills row 1. -/
def doubleWinBoard : Board :=
  [some Mark.X, some Mark.X, some Mark.X,
   some Mark.O, some Mark.O, some Mark.O,
   none, none, none]

/-! ### Basic lemmas about cells, placing marks, and legal moves -/

theorem length_placeMark (squares : Board) (idx : Nat) (m : Mark) :
    (placeMark squares idx m).length = squares.length :=
  List.length_set squares idx (some m)

theorem cell_placeMark_self {squares : Board} {idx : Nat} (m : Mark)
    (h : idx < squares.length) :
    cell (placeMark squares idx m) idx = some m := by
  simp [cell, placeMark, List.getD_eq_getElem?_getD, List.getElem?_set_self h]

theorem cell_placeMark_ne {squares : Board} (idx : Nat) {j : Nat} (m : Mark)
    (h : idx ≠ j) :
    cell (placeMark squares idx m) j = cell squares j := by
  simp [cell, placeMark, List.getD_eq_getElem?_getD, List.getElem?_set_ne h]

theorem mem_getAvailableMoves {squares : Board} {i : Nat} :
    i ∈ getAvailableMoves squares ↔ i < squares.length ∧ cell squares i = none := by
  simp [getAvailableMoves, List.mem_filter, List.mem_range]

theorem getAvailableMoves_sorted (squares : Board) :
    List.Pairwise (· < ·) (getAvailableMoves squares) :=
  List.Pairwise.filter _ (List.sorted_lt_range squares.length)

theorem length_getAvailableMoves (squares : Board) :
    (getAvailableMoves squares).length = squares.countP (fun c => decide (c = none)) := by
  induction squares with
  | nil => rfl
  | cons x l ih =>
    unfold getAvailableMoves at ih ⊢
    rw [List.length_cons, List.range_succ_eq_map, List.filter_cons]
    have hmap : (List.map Nat.succ (List.range l.length)).filter
        (fun i => decide (cell (x :: l) i = none)) =
        List.map Nat.succ ((List.range l.length).filter
          (fun i => decide (cell l i = none))) := by
      rw [List.filter_map]
      rfl
    simp only [cell, List.getD_eq_getElem?_getD] at ih
    by_cases hx : x = none
    · simp only [List.countP_cons, hmap, List.length_map] at *
      simp [cell, hx, ih]
    · simp only [List.countP_cons, hmap, List.length_map] at *
      simp [cell, hx, ih]

theorem countP_none_add_occupied (squares : Board) :
    squares.countP (fun c => decide (c = none)) + occupiedCount squares =
      squares.length := by
  unfold occupiedCount
  induction squares with
  | nil => rfl
  | cons x l ih =>
    cases x <;> simp [List.countP_cons, ← ih] <;> omega

/-! ### Characterization of `calculateWinner` -/

theorem winnerAux_some {squares : Board} :
    ∀ {L : List (Nat × Nat × Nat)} {m : Mark},
      winnerAux squares L = some m → ∃ t ∈ L, lineFilled squares t m := by
  intro L
  induction L with
  | nil => intro m h; simp [winnerAux] at h
  | cons t rest ih =>
    intro m h
    obtain ⟨a, b, c⟩ := t
    rw [winnerAux] at h
    split_ifs at h with hcond
    · obtain ⟨h1, h2, h3⟩ := hcond
      refine ⟨(a, b, c), List.mem_cons_self _ _, h, ?_, ?_⟩
      · rw [← h2]; exact h
      · rw [← h3, ← h2]; exact h
    · obtain ⟨t', ht', hf⟩ := ih h
      exact ⟨t', List.mem_cons_of_mem _ ht', hf⟩

theorem winnerAux_none_iff {squares : Board} :
    ∀ {L : List (Nat × Nat × Nat)},
      winnerAux squares L = none ↔ ∀ t ∈ L, ∀ m, ¬lineFilled squares t m := by
  intro L
  induction L with
  | nil => simp [winnerAux]
  | cons t rest ih =>
    obtain ⟨a, b, c⟩ := t
    rw [winnerAux]
    split_ifs with hcond
    · obtain ⟨h1, h2, h3⟩ := hcond
      obtain ⟨m, hm⟩ := Option.isSome_iff_exists.mp h1
      constructor
      · intro h; rw [hm] at h; exact absurd h (by simp)
      · intro h
        exact absurd ⟨hm, by rw [← h2]; exact hm, by rw [← h3, ← h2]; exact hm⟩
          (h (a, b, c) (List.mem_cons_self _ _) m)
    · rw [ih]
      constructor
      · intro h t' ht' m
        rcases List.mem_cons.mp ht' with rfl | hmem
        · intro ⟨f1, f2, f3⟩
          exact hcond ⟨by simp [f1], by rw [f1, f2], by rw [f2, f3]⟩
        · exact h t' hmem m
      · intro h t' ht' m
        exact h t' (List.mem_cons_of_mem _ ht') m

theorem winnerAux_of_filled {squares : Board} {m : Mark} :
    ∀ {L : List (Nat × Nat × Nat)}, (∃ t ∈ L, lineFilled squares t m) →
      (∀ t' ∈ L, ∀ m', lineFilled squares t' m' → m' = m) →
      winnerAux squares L = some m := by
  intro L
  induction L with
  | nil => intro ⟨t, ht, _⟩ _; exact absurd ht (List.not_mem_nil t)
  | cons t rest ih =>
    intro ⟨t', ht', hf⟩ huniq
    obtain ⟨a, b, c⟩ := t
    rw [winnerAux]
    split_ifs with hcond
    · obtain ⟨h1, h2, h3⟩ := hcond
      obtain ⟨m', hm'⟩ := Option.isSome_iff_exists.mp h1
      have : lineFilled squares (a, b, c) m' :=
        ⟨hm', by rw [← h2]; exact hm', by rw [← h3, ← h2]; exact hm'⟩
      rw [hm', huniq (a, b, c) (List.mem_cons_self _ _) m' this]
    · rcases List.mem_cons.mp ht' with rfl | hmem
      · obtain ⟨f1, f2, f3⟩ := hf
        exact absurd ⟨by simp [f1], by rw [f1, f2], by rw [f2, f3]⟩ hcond
      · exact ih ⟨t', hmem, hf⟩
          (fun t'' ht'' m' => huniq t'' (List.mem_cons_of_mem _ ht'') m')

theorem calculateWinner_none_iff {squares : Board} :
    calculateWinner squares = none ↔ ∀ t ∈ lines, ∀ m, ¬lineFilled squares t m :=
  winnerAux_none_iff

theorem calculateWinner_some {squares : Board} {m : Mark}
    (h : calculateWinner squares = some m) : ∃ t ∈ lines, lineFilled squares t m :=
  winnerAux_some h

theorem calculateWinner_of_filled {squares : Board} {m : Mark}
    (h : ∃ t ∈ lines, lineFilled squares t m)
    (huniq : ∀ t' ∈ lines, ∀ m', lineFilled squares t' m' → m' = m) :
    calculateWinner squares = some m :=
  winnerAux_of_filled h huniq

/-! ### The selection loops of `minimax` -/

theorem bestBy_gt_inv (b : MoveScore) :
    ∀ ms : List MoveScore, ∃ r, bestBy gtOpt ms (some b.score) (some b) = some r ∧
      ((r = b ∧ ∀ m ∈ ms, m.score ≤ b.score) ∨
       (∃ pre post, ms = pre ++ r :: post ∧ b.score < r.score ∧
         (∀ m ∈ pre, m.score < r.score) ∧ (∀ m ∈ post, m.score ≤ r.score))) := by
  intro ms
  induction ms generalizing b with
  | nil => exact ⟨b, rfl, Or.inl ⟨rfl, by simp⟩⟩
  | cons m rest ih =>
    rw [bestBy]
    by_cases hgt : b.score < m.score
    · rw [if_pos (by simp [gtOpt, hgt])]
      obtain ⟨r, hr, hcases⟩ := ih m
      refine ⟨r, hr, Or.inr ?_⟩
      rcases hcases with ⟨rfl, hall⟩ | ⟨pre, post, hsplit, hmr, hpre, hpost⟩
      · exact ⟨[], rest, rfl, hgt, by simp, hall⟩
      · refine ⟨m :: pre, post, by rw [hsplit]; rfl, lt_trans hgt hmr, ?_, hpost⟩
        intro m' hm'
        rcases List.mem_cons.mp hm' with rfl | h
        · exact hmr
        · exact hpre m' h
    · rw [if_neg (by simp [gtOpt, hgt])]
      obtain ⟨r, hr, hcases⟩ := ih b
      refine ⟨r, hr, ?_⟩
      rcases hcases with ⟨rfl, hall⟩ | ⟨pre, post, hsplit, hbr, hpre, hpost⟩
      · refine Or.inl ⟨rfl, ?_⟩
        intro m' hm'
        rcases List.mem_cons.mp hm' with rfl | h
        · exact le_of_not_lt hgt
        · exact hall m' h
      · refine Or.inr ⟨m :: pre, post, by rw [hsplit]; rfl, hbr, ?_, hpost⟩
        intro m' hm'
        rcases List.mem_cons.mp hm' with rfl | h
        · exact lt_of_le_of_lt (le_of_not_lt hgt) hbr
        · exact hpre m' h

theorem bestBy_lt_inv (b : MoveScore) :
    ∀ ms : List MoveScore, ∃ r, bestBy ltOpt ms (some b.score) (some b) = some r ∧
      ((r = b ∧ ∀ m ∈ ms, b.score ≤ m.score) ∨
       (∃ pre post, ms = pre ++ r :: post ∧ r.score < b.score ∧
         (∀ m ∈ pre, r.score < m.score) ∧ (∀ m ∈ post, r.score ≤ m.score))) := by
  intro ms
  induction ms generalizing b with
  | nil => exact ⟨b, rfl, Or.inl ⟨rfl, by simp⟩⟩
  | cons m rest ih =>
    rw [bestBy]
    by_cases hlt : m.score < b.score
    · rw [if_pos (by simp [ltOpt, hlt])]
      obtain ⟨r, hr, hcases⟩ := ih m
      refine ⟨r, hr, Or.inr ?_⟩
      rcases hcases with ⟨rfl, hall⟩ | ⟨pre, post, hsplit, hmr, hpre, hpost⟩
      · exact ⟨[], rest, rfl, hlt, by simp, hall⟩
      · refine ⟨m :: pre, post, by rw [hsplit]; rfl, lt_trans hmr hlt, ?_, hpost⟩
        intro m' hm'
        rcases List.mem_cons.mp hm' with rfl | h
        · exact hmr
        · exact hpre m' h
    · rw [if_neg (by simp [ltOpt, hlt])]
      obtain ⟨r, hr, hcases⟩ := ih b
      refine ⟨r, hr, ?_⟩
      rcases hcases with ⟨rfl, hall⟩ | ⟨pre, post, hsplit, hbr, hpre, hpost⟩
      · refine Or.inl ⟨rfl, ?_⟩
        intro m' hm'
        rcases List.mem_cons.mp hm' with rfl | h
        · exact le_of_not_lt hlt
        · exact hall m' h
      · refine Or.inr ⟨m :: pre, post, by rw [hsplit]; rfl, hbr, ?_, hpost⟩
        intro m' hm'
        rcases List.mem_cons.mp hm' with rfl | h
        · exact lt_of_lt_of_le hbr (le_of_not_lt hlt)
        · exact hpre m' h

/-- The maximize loop returns the first record attaining the strictly
greatest score: everything before it scores strictly lower, everything after
scores no higher. -/
theorem bestBy_gt_spec (m0 : MoveScore) (rest : List MoveScore) :
    ∃ r pre post, bestBy gtOpt (m0 :: rest) none (some m0) = some r ∧
      m0 :: rest = pre ++ r :: post ∧
      (∀ m ∈ pre, m.score < r.score) ∧ (∀ m ∈ post, m.score ≤ r.score) := by
  rw [bestBy, if_pos (by simp [gtOpt])]
  obtain ⟨r, hr, hcases⟩ := bestBy_gt_inv m0 rest
  rcases hcases with ⟨rfl, hall⟩ | ⟨pre, post, hsplit, hmr, hpre, hpost⟩
  · exact ⟨r, [], rest, hr, rfl, by simp, hall⟩
  · refine ⟨r, m0 :: pre, post, hr, by rw [hsplit]; rfl, ?_, hpost⟩
    intro m' hm'
    rcases List.mem_cons.mp hm' with rfl | h
    · exact hmr
    · exact hpre m' h

/-- The minimize loop returns the first record attaining the strictly least
score. -/
theorem bestBy_lt_spec (m0 : MoveScore) (rest : List MoveScore) :
    ∃ r pre post, bestBy ltOpt (m0 :: rest) none (some m0) = some r ∧
      m0 :: rest = pre ++ r :: post ∧
      (∀ m ∈ pre, r.score < m.score) ∧ (∀ m ∈ post, r.score ≤ m.score) := by
  rw [bestBy, if_pos (by simp [ltOpt])]
  obtain ⟨r, hr, hcases⟩ := bestBy_lt_inv m0 rest
  rcases hcases with ⟨rfl, hall⟩ | ⟨pre, post, hsplit, hmr, hpre, hpost⟩
  · exact ⟨r, [], rest, hr, rfl, by simp, hall⟩
  · refine ⟨r, m0 :: pre, post, hr, by rw [hsplit]; rfl, ?_, hpost⟩
    intro m' hm'
    rcases List.mem_cons.mp hm' with rfl | h
    · exact hmr
    · exact hpre m' h

/-! ### Unfolding lemmas for `minimaxF` and fuel bookkeeping -/

theorem minimaxF_winner_ai {squares : Board} {aiPlayer : Mark}
    (fuel : Nat) (currentPlayer humanPlayer : Mark) (depth : Nat)
    (h : calculateWinner squares = some aiPlayer) :
    minimaxF (fuel + 1) squares currentPlayer aiPlayer humanPlayer depth =
      ⟨none, 10 - (depth : Int)⟩ := by
  rw [minimaxF, if_pos h]

theorem minimaxF_winner_hu {squares : Board} {aiPlayer humanPlayer : Mark}
    (fuel : Nat) (currentPlayer : Mark) (depth : Nat)
    (h1 : calculateWinner squares ≠ some aiPlayer)
    (h : calculateWinner squares = some humanPlayer) :
    minimaxF (fuel + 1) squares currentPlayer aiPlayer humanPlayer depth =
      ⟨none, (depth : Int) - 10⟩ := by
  rw [minimaxF, if_neg h1, if_pos h]

theorem minimaxF_draw {squares : Board}
    (fuel : Nat) (currentPlayer aiPlayer humanPlayer : Mark) (depth : Nat)
    (h1 : calculateWinner squares ≠ some aiPlayer)
    (h2 : calculateWinner squares ≠ some humanPlayer)
    (h3 : getAvailableMoves squares = []) :
    minimaxF (fuel + 1) squares currentPlayer aiPlayer humanPlayer depth =
      ⟨none, 0⟩ := by
  rw [minimaxF, if_neg h1, if_neg h2, if_pos h3]

theorem minimaxF_step {squares : Board}
    (fuel : Nat) (currentPlayer aiPlayer humanPlayer : Mark) (depth : Nat)
    (h1 : calculateWinner squares ≠ some aiPlayer)
    (h2 : calculateWinner squares ≠ some humanPlayer)
    (h3 : getAvailableMoves squares ≠ []) :
    minimaxF (fuel + 1) squares currentPlayer aiPlayer humanPlayer depth =
      (let moves := (getAvailableMoves squares).map (fun idx =>
        MoveScore.mk idx
          (minimaxF fuel (placeMark squares idx currentPlayer)
            (if currentPlayer = aiPlayer then humanPlayer else aiPlayer)
            aiPlayer humanPlayer (depth + 1)).score)
      if currentPlayer = aiPlayer then
        toResult (bestBy gtOpt moves none moves.head?)
      else
        toResult (bestBy ltOpt moves none moves.head?)) := by
  rw [minimaxF, if_neg h1, if_neg h2, if_neg h3]

theorem countP_set {p : Option Mark → Bool} :
    ∀ (l : List (Option Mark)) (i : Nat) (a : Option Mark), i < l.length →
      (l.set i a).countP p + (if p (cell l i) then 1 else 0) =
        l.countP p + (if p a then 1 else 0) := by
  intro l
  induction l with
  | nil => intro i a h; simp at h
  | cons x t ih =>
    intro i a h
    cases i with
    | zero =>
      show (a :: t).countP p + _ = _
      cases hpx : p x <;> cases hpa : p a <;>
        simp [List.countP_cons, cell, hpx, hpa] <;> omega
    | succ n =>
      have hn : n < t.length := by simpa using h
      show (x :: t.set n a).countP p + _ = _
      have := ih n a hn
      cases hpx : p x <;>
        simp only [List.countP_cons, cell, List.getD_cons_succ, hpx] <;>
        simp only [cell] at this <;> omega

theorem emptyCount_placeMark {squares : Board} {i : Nat} (m : Mark)
    (h : i ∈ getAvailableMoves squares) :
    emptyCount (placeMark squares i m) + 1 = emptyCount squares := by
  obtain ⟨hlt, hcell⟩ := mem_getAvailableMoves.mp h
  have := countP_set (p := fun c => decide (c = none)) squares i (some m) hlt
  rw [hcell] at this
  simp only [decide_True, if_true] at this
  unfold emptyCount
  rw [length_getAvailableMoves, length_getAvailableMoves]
  simpa [placeMark] using this

theorem emptyCount_le_length (squares : Board) :
    emptyCount squares ≤ squares.length := by
  unfold emptyCount getAvailableMoves
  exact le_trans (List.length_filter_le _ _) (by simp)

theorem minimaxF_congr_fuel :
    ∀ {f g : Nat} {squares : Board} {c ai hu : Mark} {d : Nat},
      emptyCount squares < f → emptyCount squares < g →
      minimaxF f squares c ai hu d = minimaxF g squares c ai hu d := by
  intro f
  induction f with
  | zero => intro g squares c ai hu d hf; omega
  | succ f ihf =>
    intro g squares c ai hu d hf hg
    cases g with
    | zero => omega
    | succ g =>
      by_cases h1 : calculateWinner squares = some ai
      · rw [minimaxF_winner_ai _ _ _ _ h1, minimaxF_winner_ai _ _ _ _ h1]
      · by_cases h2 : calculateWinner squares = some hu
        · rw [minimaxF_winner_hu _ _ _ h1 h2, minimaxF_winner_hu _ _ _ h1 h2]
        · by_cases h3 : getAvailableMoves squares = []
          · rw [minimaxF_draw _ _ _ _ _ h1 h2 h3, minimaxF_draw _ _ _ _ _ h1 h2 h3]
          · rw [minimaxF_step _ _ _ _ _ h1 h2 h3, minimaxF_step _ _ _ _ _ h1 h2 h3]
            have hmap : ∀ idx ∈ getAvailableMoves squares,
                MoveScore.mk idx
                  (minimaxF f (placeMark squares idx c)
                    (if c = ai then hu else ai) ai hu (d + 1)).score =
                MoveScore.mk idx
                  (minimaxF g (placeMark squares idx c)
                    (if c = ai then hu else ai) ai hu (d + 1)).score := by
              intro idx hidx
              have hdec := emptyCount_placeMark c hidx
              rw [ihf (by omega) (g := g) (by omega)]
            simp only [List.map_congr_left hmap]

theorem minimax_eq_minimaxF {f : Nat} {squares : Board} {c ai hu : Mark}
    {d : Nat} (h : emptyCount squares < f) :
    minimax squares c ai hu d = minimaxF f squares c ai hu d :=
  minimaxF_congr_fuel
    (Nat.lt_succ_of_le (emptyCount_le_length squares)) h

/-- On a non-terminal board, `minimax` runs the appropriate selection loop
over the explored `(index, score)` records, each scored by a recursive
top-level `minimax` call at depth + 1. -/
theorem minimax_nonterminal {squares : Board} {c ai hu : Mark} {d : Nat}
    (h1 : calculateWinner squares ≠ some ai)
    (h2 : calculateWinner squares ≠ some hu)
    (h3 : getAvailableMoves squares ≠ []) :
    minimax squares c ai hu d =
      (if c = ai then
        toResult (bestBy gtOpt (explored squares c ai hu d) none
          (explored squares c ai hu d).head?)
      else
        toResult (bestBy ltOpt (explored squares c ai hu d) none
          (explored squares c ai hu d).head?)) := by
  unfold minimax
  rw [minimaxF_step _ _ _ _ _ h1 h2 h3]
  have hmap : ∀ idx ∈ getAvailableMoves squares,
      MoveScore.mk idx
        (minimaxF squares.length (placeMark squares idx c)
          (if c = ai then hu else ai) ai hu (d + 1)).score =
      MoveScore.mk idx
        (minimax (placeMark squares idx c)
          (if c = ai then hu else ai) ai hu (d + 1)).score := by
    intro idx hidx
    have hdec := emptyCount_placeMark c hidx
    have hle := emptyCount_le_length squares
    rw [minimax_eq_minimaxF (f := squares.length) (by omega)]
  simp only [explored, List.map_congr_left hmap]

/-! ### Selection behaviour of `minimax` on non-terminal boards -/

theorem explored_eq_nil_iff {squares : Board} {c ai hu : Mark} {d : Nat} :
    explored squares c ai hu d = [] ↔ getAvailableMoves squares = [] := by
  unfold explored
  simp

theorem mem_explored {squares : Board} {c ai hu : Mark} {d : Nat}
    {m : MoveScore} :
    m ∈ explored squares c ai hu d ↔
      m.index ∈ getAvailableMoves squares ∧
      m.score = (minimax (placeMark squares m.index c)
        (if c = ai then hu else ai) ai hu (d + 1)).score := by
  unfold explored
  rw [List.mem_map]
  constructor
  · rintro ⟨idx, hidx, rfl⟩
    exact ⟨hidx, rfl⟩
  · intro ⟨hmem, hscore⟩
    exact ⟨m.index, hmem, by cases m; simp_all⟩

theorem minimax_select_max {squares : Board} {c ai hu : Mark} {d : Nat}
    (h1 : calculateWinner squares ≠ some ai)
    (h2 : calculateWinner squares ≠ some hu)
    (h3 : getAvailableMoves squares ≠ [])
    (hc : c = ai) :
    ∃ r pre post,
      minimax squares c ai hu d = ⟨some r.index, r.score⟩ ∧
      explored squares c ai hu d = pre ++ r :: post ∧
      (∀ m ∈ pre, m.score < r.score) ∧ (∀ m ∈ post, m.score ≤ r.score) := by
  rw [minimax_nonterminal h1 h2 h3, if_pos hc]
  cases hexp : explored squares c ai hu d with
  | nil => exact absurd (explored_eq_nil_iff.mp hexp) h3
  | cons m0 rest =>
    obtain ⟨r, pre, post, hbest, hsplit, hpre, hpost⟩ := bestBy_gt_spec m0 rest
    refine ⟨r, pre, post, ?_, hsplit, hpre, hpost⟩
    simp only [List.head?_cons, hbest, toResult]

theorem minimax_select_min {squares : Board} {c ai hu : Mark} {d : Nat}
    (h1 : calculateWinner squares ≠ some ai)
    (h2 : calculateWinner squares ≠ some hu)
    (h3 : getAvailableMoves squares ≠ [])
    (hc : c ≠ ai) :
    ∃ r pre post,
      minimax squares c ai hu d = ⟨some r.index, r.score⟩ ∧
      explored squares c ai hu d = pre ++ r :: post ∧
      (∀ m ∈ pre, r.score < m.score) ∧ (∀ m ∈ post, r.score ≤ m.score) := by
  rw [minimax_nonterminal h1 h2 h3, if_neg hc]
  cases hexp : explored squares c ai hu d with
  | nil => exact absurd (explored_eq_nil_iff.mp hexp) h3
  | cons m0 rest =>
    obtain ⟨r, pre, post, hbest, hsplit, hpre, hpost⟩ := bestBy_lt_spec m0 rest
    refine ⟨r, pre, post, ?_, hsplit, hpre, hpost⟩
    simp only [List.head?_cons, hbest, toResult]

/-- Whenever `minimax` reports a move index, that index is a legal move. -/
theorem minimax_index_mem {squares : Board} {c ai hu : Mark} {d : Nat} {i : Nat}
    (h : (minimax squares c ai hu d).index = some i) :
    i ∈ getAvailableMoves squares := by
  by_cases h1 : calculateWinner squares = some ai
  · unfold minimax at h
    rw [minimaxF_winner_ai _ _ _ _ h1] at h
    exact absurd h (by simp)
  · by_cases h2 : calculateWinner squares = some hu
    · unfold minimax at h
      rw [minimaxF_winner_hu _ _ _ h1 h2] at h
      exact absurd h (by simp)
    · by_cases h3 : getAvailableMoves squares = []
      · unfold minimax at h
        rw [minimaxF_draw _ _ _ _ _ h1 h2 h3] at h
        exact absurd h (by simp)
      · by_cases hc : c = ai
        · obtain ⟨r, pre, post, hres, hsplit, -, -⟩ :=
            minimax_select_max h1 h2 h3 hc
          rw [hres] at h
          have hr : r ∈ explored squares c ai hu d := by
            rw [hsplit]; exact List.mem_append_right _ (List.mem_cons_self _ _)
          have := (mem_explored.mp hr).1
          simp only [Option.some.injEq] at h
          rwa [← h]
        · obtain ⟨r, pre, post, hres, hsplit, -, -⟩ :=
            minimax_select_min h1 h2 h3 hc
          rw [hres] at h
          have hr : r ∈ explored squares c ai hu d := by
            rw [hsplit]; exact List.mem_append_right _ (List.mem_cons_self _ _)
          have := (mem_explored.mp hr).1
          simp only [Option.some.injEq] at h
          rwa [← h]

/-! ### Terminal behaviour of `minimax`, decomposition helpers -/

theorem minimax_winner_ai {squares : Board} {aiPlayer : Mark}
    (currentPlayer humanPlayer : Mark) (depth : Nat)
    (h : calculateWinner squares = some aiPlayer) :
    minimax squares currentPlayer aiPlayer humanPlayer depth =
      ⟨none, 10 - (depth : Int)⟩ :=
  minimaxF_winner_ai _ _ _ _ h

theorem minimax_winner_hu {squares : Board} {aiPlayer humanPlayer : Mark}
    (currentPlayer : Mark) (depth : Nat)
    (h1 : calculateWinner squares ≠ some aiPlayer)
    (h : calculateWinner squares = some humanPlayer) :
    minimax squares currentPlayer aiPlayer humanPlayer depth =
      ⟨none, (depth : Int) - 10⟩ :=
  minimaxF_winner_hu _ _ _ h1 h

theorem minimax_draw {squares : Board}
    (currentPlayer aiPlayer humanPlayer : Mark) (depth : Nat)
    (h1 : calculateWinner squares ≠ some aiPlayer)
    (h2 : calculateWinner squares ≠ some humanPlayer)
    (h3 : getAvailableMoves squares = []) :
    minimax squares currentPlayer aiPlayer humanPlayer depth = ⟨none, 0⟩ :=
  minimaxF_draw _ _ _ _ _ h1 h2 h3

theorem Mark.eq_or_eq (m e o : Mark) (h : e ≠ o) : m = e ∨ m = o := by
  cases m <;> cases e <;> cases o <;> simp_all

theorem mem_of_decomp {r : MoveScore} {pre post ms : List MoveScore}
    (h : ms = pre ++ r :: post) : r ∈ ms := by
  rw [h]
  exact List.mem_append_right _ (List.mem_cons_self _ _)

theorem score_le_of_decomp {r : MoveScore} {pre post ms : List MoveScore}
    (h : ms = pre ++ r :: post)
    (hpre : ∀ m ∈ pre, m.score < r.score)
    (hpost : ∀ m ∈ post, m.score ≤ r.score) :
    ∀ m ∈ ms, m.score ≤ r.score := by
  intro m hm
  rw [h] at hm
  rcases List.mem_append.mp hm with hp | hc
  · exact le_of_lt (hpre m hp)
  · rcases List.mem_cons.mp hc with rfl | hp
    · exact le_refl _
    · exact hpost m hp

theorem score_ge_of_decomp {r : MoveScore} {pre post ms : List MoveScore}
    (h : ms = pre ++ r :: post)
    (hpre : ∀ m ∈ pre, r.score < m.score)
    (hpost : ∀ m ∈ post, r.score ≤ m.score) :
    ∀ m ∈ ms, r.score ≤ m.score := by
  intro m hm
  rw [h] at hm
  rcases List.mem_append.mp hm with hp | hc
  · exact le_of_lt (hpre m hp)
  · rcases List.mem_cons.mp hc with rfl | hp
    · exact le_refl _
    · exact hpost m hp

/-! ### The optimal play-out determines the `minimax` score -/

theorem playF_winner {squares : Board} {m : Mark}
    (fuel : Nat) (c ai hu : Mark) (d : Nat)
    (h : calculateWinner squares = some m) :
    playF (fuel + 1) squares c ai hu d = (some m, 0) := by
  simp [playF, h]

theorem playF_draw {squares : Board}
    (fuel : Nat) (c ai hu : Mark) (d : Nat)
    (h : calculateWinner squares = none)
    (h3 : getAvailableMoves squares = []) :
    playF (fuel + 1) squares c ai hu d = (none, 0) := by
  simp [playF, h, h3]

theorem playF_step {squares : Board} {c ai hu : Mark} {d : Nat} {i : Nat}
    (fuel : Nat)
    (h : calculateWinner squares = none)
    (h3 : getAvailableMoves squares ≠ [])
    (hidx : (minimax squares c ai hu d).index = some i) :
    playF (fuel + 1) squares c ai hu d =
      ((playF fuel (placeMark squares i c)
          (if c = ai then hu else ai) ai hu (d + 1)).1,
       (playF fuel (placeMark squares i c)
          (if c = ai then hu else ai) ai hu (d + 1)).2 + 1) := by
  simp [playF, h, h3, hidx]

/-- The score computed by `minimax` is exactly the depth-adjusted score of
the optimal play-out from the same position. -/
theorem minimax_score_eq_playF {ai hu : Mark} (hai : ai ≠ hu) :
    ∀ {fuel : Nat} {squares : Board} {c : Mark} {d : Nat},
      emptyCount squares < fuel →
      (minimax squares c ai hu d).score =
        outcomeScore (playF fuel squares c ai hu d).1
          (playF fuel squares c ai hu d).2 ai hu d := by
  intro fuel
  induction fuel with
  | zero => intro squares c d hf; omega
  | succ fuel ih =>
    intro squares c d hf
    cases hw : calculateWinner squares with
    | some m =>
      rw [playF_winner _ _ _ _ _ hw]
      rcases Mark.eq_or_eq m ai hu hai with rfl | rfl
      · rw [minimax_winner_ai _ _ _ hw]
        simp [outcomeScore]
      · rw [minimax_winner_hu _ _ (by simp [hw, Ne.symm hai]) hw]
        simp [outcomeScore, Ne.symm hai]
    | none =>
      by_cases h3 : getAvailableMoves squares = []
      · rw [playF_draw _ _ _ _ _ hw h3]
        rw [minimax_draw _ _ _ _ (by simp [hw]) (by simp [hw]) h3]
        simp [outcomeScore]
      · have h1 : calculateWinner squares ≠ some ai := by simp [hw]
        have h2 : calculateWinner squares ≠ some hu := by simp [hw]
        by_cases hc : c = ai
        · obtain ⟨r, pre, post, hres, hsplit, hpre, hpost⟩ :=
            minimax_select_max h1 h2 h3 hc
          have hidx : (minimax squares c ai hu d).index = some r.index := by
            rw [hres]
          have hrmem := mem_explored.mp (mem_of_decomp hsplit)
          have hdec := emptyCount_placeMark c hrmem.1
          rw [playF_step fuel hw h3 hidx, hres]
          have := @ih (placeMark squares r.index c)
            (if c = ai then hu else ai) (d + 1) (by omega)
          rw [hrmem.2, this]
          unfold outcomeScore
          have harith : (d + 1) + (playF fuel (placeMark squares r.index c)
              (if c = ai then hu else ai) ai hu (d + 1)).2 =
              d + ((playF fuel (placeMark squares r.index c)
              (if c = ai then hu else ai) ai hu (d + 1)).2 + 1) := by omega
          rw [harith]
        · obtain ⟨r, pre, post, hres, hsplit, hpre, hpost⟩ :=
            minimax_select_min h1 h2 h3 hc
          have hidx : (minimax squares c ai hu d).index = some r.index := by
            rw [hres]
          have hrmem := mem_explored.mp (mem_of_decomp hsplit)
          have hdec := emptyCount_placeMark c hrmem.1
          rw [playF_step fuel hw h3 hidx, hres]
          have := @ih (placeMark squares r.index c)
            (if c = ai then hu else ai) (d + 1) (by omega)
          rw [hrmem.2, this]
          unfold outcomeScore
          have harith : (d + 1) + (playF fuel (placeMark squares r.index c)
              (if c = ai then hu else ai) ai hu (d + 1)).2 =
              d + ((playF fuel (placeMark squares r.index c)
              (if c = ai then hu else ai) ai hu (d + 1)).2 + 1) := by omega
          rw [harith]

/-! ### Soundness and completeness of the certificate checker `noLoseF` -/

theorem mem_tryOrder {i : Nat} : i ∈ tryOrder ↔ i < 9 := by
  simp only [tryOrder, List.mem_cons, List.not_mem_nil, or_false]
  omega

theorem mem_cand {squares : Board} (h9 : squares.length = 9) {i : Nat} :
    i ∈ tryOrder.filter (fun j => decide (cell squares j = none)) ↔
      i ∈ getAvailableMoves squares := by
  rw [List.mem_filter, mem_getAvailableMoves, mem_tryOrder, h9]
  simp

theorem cand_nil_iff {squares : Board} (h9 : squares.length = 9) :
    tryOrder.filter (fun j => decide (cell squares j = none)) = [] ↔
      getAvailableMoves squares = [] := by
  rw [List.eq_nil_iff_forall_not_mem, List.eq_nil_iff_forall_not_mem]
  constructor
  · intro h i hi
    exact h i ((mem_cand h9).mpr hi)
  · intro h i hi
    exact h i ((mem_cand h9).mp hi)

theorem noLoseF_sound {e o : Mark} (heo : e ≠ o) :
    ∀ {fuel : Nat} {squares : Board} {cur : Mark} {d : Nat},
      squares.length = 9 → emptyCount squares < fuel →
      d + emptyCount squares ≤ 9 →
      noLoseF e o fuel squares cur = true →
      0 ≤ (minimax squares cur e o d).score := by
  intro fuel
  induction fuel with
  | zero => intro squares cur d h9 hf hd h; omega
  | succ fuel ih =>
    intro squares cur d h9 hf hd h
    rw [noLoseF] at h
    split at h
    case _ m heq =>
      have hm : m ≠ o := of_decide_eq_true h
      rcases Mark.eq_or_eq m e o heo with rfl | rfl
      · rw [minimax_winner_ai _ _ _ heq]
        show (0 : Int) ≤ 10 - (d : Int)
        omega
      · exact absurd rfl hm
    case _ heq =>
      split_ifs at h with hcand hcur
      · have h3 := (cand_nil_iff h9).mp hcand
        rw [minimax_draw _ _ _ _ (by simp [heq]) (by simp [heq]) h3]
      · have h3 : getAvailableMoves squares ≠ [] := fun hnil =>
          hcand ((cand_nil_iff h9).mpr hnil)
        rw [List.any_eq_true] at h
        obtain ⟨i, hi, hrec⟩ := h
        have hiav : i ∈ getAvailableMoves squares := (mem_cand h9).mp hi
        obtain ⟨r, pre, post, hres, hsplit, hpre, hpost⟩ :=
          minimax_select_max (by simp [heq]) (by simp [heq]) h3 hcur
        rw [hres]
        have hmem : MoveScore.mk i (minimax (placeMark squares i cur)
            (if cur = e then o else e) e o (d + 1)).score ∈
            explored squares cur e o d :=
          mem_explored.mpr ⟨hiav, rfl⟩
        have hle := score_le_of_decomp hsplit hpre hpost _ hmem
        have hdec := emptyCount_placeMark cur hiav
        have h9' : (placeMark squares i cur).length = 9 := by
          rw [length_placeMark, h9]
        have hval := @ih (placeMark squares i cur) o (d + 1) h9'
          (by omega) (by omega) hrec
        simp only [if_pos hcur] at hle
        exact le_trans hval hle
      · have h3 : getAvailableMoves squares ≠ [] := fun hnil =>
          hcand ((cand_nil_iff h9).mpr hnil)
        rw [List.all_eq_true] at h
        obtain ⟨r, pre, post, hres, hsplit, hpre, hpost⟩ :=
          minimax_select_min (by simp [heq]) (by simp [heq]) h3 hcur
        rw [hres]
        have hrmem := mem_explored.mp (mem_of_decomp hsplit)
        have hicand : r.index ∈
            tryOrder.filter (fun j => decide (cell squares j = none)) :=
          (mem_cand h9).mpr hrmem.1
        have hrec := h _ hicand
        have hdec := emptyCount_placeMark cur hrmem.1
        have h9' : (placeMark squares r.index cur).length = 9 := by
          rw [length_placeMark, h9]
        have hval := @ih (placeMark squares r.index cur) e (d + 1) h9'
          (by omega) (by omega) hrec
        rw [hrmem.2]
        simpa [if_neg hcur] using hval

theorem noLoseF_complete {e o : Mark} (heo : e ≠ o) :
    ∀ {fuel : Nat} {squares : Board} {cur : Mark} {d : Nat},
      squares.length = 9 → emptyCount squares < fuel →
      d + emptyCount squares ≤ 9 →
      0 ≤ (minimax squares cur e o d).score →
      noLoseF e o fuel squares cur = true := by
  intro fuel
  induction fuel with
  | zero => intro squares cur d h9 hf hd h; omega
  | succ fuel ih =>
    intro squares cur d h9 hf hd h
    rw [noLoseF]
    split
    case _ m heq =>
      rcases Mark.eq_or_eq m e o heo with rfl | rfl
      · simp [heo]
      · rw [minimax_winner_hu _ _ (by simp [heq, Ne.symm heo]) heq] at h
        have : (0 : Int) ≤ (d : Int) - 10 := h
        omega
    case _ heq =>
      split_ifs with hcand hcur
      · rfl
      · have h3 : getAvailableMoves squares ≠ [] := fun hnil =>
          hcand ((cand_nil_iff h9).mpr hnil)
        rw [List.any_eq_true]
        obtain ⟨r, pre, post, hres, hsplit, hpre, hpost⟩ :=
          minimax_select_max (by simp [heq]) (by simp [heq]) h3 hcur
        rw [hres] at h
        have hrmem := mem_explored.mp (mem_of_decomp hsplit)
        refine ⟨r.index, (mem_cand h9).mpr hrmem.1, ?_⟩
        have hdec := emptyCount_placeMark cur hrmem.1
        have h9' : (placeMark squares r.index cur).length = 9 := by
          rw [length_placeMark, h9]
        refine @ih (placeMark squares r.index cur) o (d + 1) h9'
          (by omega) (by omega) ?_
        have hscore : 0 ≤ r.score := h
        rw [hrmem.2] at hscore
        simpa [if_pos hcur] using hscore
      · have h3 : getAvailableMoves squares ≠ [] := fun hnil =>
          hcand ((cand_nil_iff h9).mpr hnil)
        rw [List.all_eq_true]
        intro i hi
        have hiav : i ∈ getAvailableMoves squares := (mem_cand h9).mp hi
        obtain ⟨r, pre, post, hres, hsplit, hpre, hpost⟩ :=
          minimax_select_min (by simp [heq]) (by simp [heq]) h3 hcur
        rw [hres] at h
        have hmem : MoveScore.mk i (minimax (placeMark squares i cur)
            (if cur = e then o else e) e o (d + 1)).score ∈
            explored squares cur e o d :=
          mem_explored.mpr ⟨hiav, rfl⟩
        have hge := score_ge_of_decomp hsplit hpre hpost _ hmem
        have hdec := emptyCount_placeMark cur hiav
        have h9' : (placeMark squares i cur).length = 9 := by
          rw [length_placeMark, h9]
        refine @ih (placeMark squares i cur) e (d + 1) h9'
          (by omega) (by omega) ?_
        have hscore : 0 ≤ (MoveScore.mk i (minimax (placeMark squares i cur)
            (if cur = e then o else e) e o (d + 1)).score).score :=
          le_trans h hge
        simpa [if_neg hcur] using hscore

/-! ### Concrete certificates: neither side can be beaten from the start

The engine-as-O certificate is assembled from nine sub-certificates, one per
opening move of X, to keep each kernel evaluation small. -/

theorem noLoseF_step_all {e o : Mark} {squares : Board} {cur : Mark}
    (fuel : Nat)
    (hw : calculateWinner squares = none)
    (hcand : tryOrder.filter (fun i => decide (cell squares i = none)) ≠ [])
    (hcur : cur ≠ e) :
    noLoseF e o (fuel + 1) squares cur =
      (tryOrder.filter (fun i => decide (cell squares i = none))).all
        (fun i => noLoseF e o fuel (placeMark squares i cur) e) := by
  simp only [noLoseF, hw]
  rw [if_neg hcand, if_neg hcur]

set_option maxRecDepth 100000 in
theorem noLose_empty_X : noLoseF Mark.X Mark.O 10 empty9 Mark.X = true := by
  decide

set_option maxRecDepth 100000 in
set_option maxHeartbeats 1000000 in
theorem noLose_open_4 :
    noLoseF Mark.O Mark.X 9 (placeMark empty9 4 Mark.X) Mark.O = true := by
  decide

set_option maxRecDepth 100000 in
set_option maxHeartbeats 1000000 in
theorem noLose_open_8 :
    noLoseF Mark.O Mark.X 9 (placeMark empty9 8 Mark.X) Mark.O = true := by
  decide

set_option maxRecDepth 100000 in
set_option maxHeartbeats 1000000 in
theorem noLose_open_0 :
    noLoseF Mark.O Mark.X 9 (placeMark empty9 0 Mark.X) Mark.O = true := by
  decide

set_option maxRecDepth 100000 in
set_option maxHeartbeats 1000000 in
theorem noLose_open_2 :
    noLoseF Mark.O Mark.X 9 (placeMark empty9 2 Mark.X) Mark.O = true := by
  decide

set_option maxRecDepth 100000 in
set_option maxHeartbeats 1000000 in
theorem noLose_open_6 :
    noLoseF Mark.O Mark.X 9 (placeMark empty9 6 Mark.X) Mark.O = true := by
  decide

set_option maxRecDepth 100000 in
set_option maxHeartbeats 1000000 in
theorem noLose_open_7 :
    noLoseF Mark.O Mark.X 9 (placeMark empty9 7 Mark.X) Mark.O = true := by
  decide

set_option maxRecDepth 100000 in
set_option maxHeartbeats 1000000 in
theorem noLose_open_1 :
    noLoseF Mark.O Mark.X 9 (placeMark empty9 1 Mark.X) Mark.O = true := by
  decide

set_option maxRecDepth 100000 in
set_option maxHeartbeats 1000000 in
theorem noLose_open_3 :
    noLoseF Mark.O Mark.X 9 (placeMark empty9 3 Mark.X) Mark.O = true := by
  decide

set_option maxRecDepth 100000 in
set_option maxHeartbeats 1000000 in
theorem noLose_open_5 :
    noLoseF Mark.O Mark.X 9 (placeMark empty9 5 Mark.X) Mark.O = true := by
  decide

theorem noLose_empty_O : noLoseF Mark.O Mark.X 10 empty9 Mark.X = true := by
  rw [show (10 : Nat) = 9 + 1 from rfl]
  rw [@noLoseF_step_all Mark.O Mark.X empty9 Mark.X 9
    (by decide) (by decide) (by decide)]
  rw [show tryOrder.filter (fun i => decide (cell empty9 i = none)) = tryOrder
    from by decide]
  rw [List.all_eq_true]
  intro i hi
  simp only [tryOrder, List.mem_cons, List.not_mem_nil, or_false] at hi
  rcases hi with rfl | rfl | rfl | rfl | rfl | rfl | rfl | rfl | rfl
  · exact noLose_open_4
  · exact noLose_open_8
  · exact noLose_open_0
  · exact noLose_open_2
  · exact noLose_open_6
  · exact noLose_open_7
  · exact noLose_open_1
  · exact noLose_open_3
  · exact noLose_open_5

theorem emptyCount_empty9 : emptyCount empty9 = 9 := by decide

/-! ### The engine-controlled side never loses -/

/-- A non-negative engine score at search depth 1 yields a non-negative
engine score at depth 0, by a round trip through the certificate checker. -/
theorem score_nonneg_shift {e o : Mark} (heo : e ≠ o) {squares : Board}
    {cur : Mark} (h9 : squares.length = 9) (h1 : 1 + emptyCount squares ≤ 9)
    (h : 0 ≤ (minimax squares cur e o 1).score) :
    0 ≤ (minimax squares cur e o 0).score := by
  have hfuel : emptyCount squares < emptyCount squares + 1 := Nat.lt_succ_self _
  have hnl := noLoseF_complete heo (d := 1) h9 hfuel h1 h
  exact noLoseF_sound heo (d := 0) h9 hfuel (by omega) hnl

/-- The invariant maintained along every engine-controlled play-out: the
board stays 9 cells long, the opponent never has a winning line, and while
the game is live the engine's minimax value is non-negative. -/
theorem engineGame_inv {e o : Mark} (heo : e ≠ o) :
    ∀ {squares : Board} {m : Mark}, EngineGame e o squares m →
      squares.length = 9 ∧
      (calculateWinner squares = none ∨ calculateWinner squares = some e) ∧
      (calculateWinner squares = none → 0 ≤ (minimax squares m e o 0).score) := by
  intro squares m hgame
  induction hgame with
  | start =>
    refine ⟨by simp [empty9], Or.inl (by decide), fun _ => ?_⟩
    have h9 : (empty9 : Board).length = 9 := by simp [empty9]
    cases e <;> cases o
    · exact absurd rfl heo
    · exact noLoseF_sound heo h9 (by rw [emptyCount_empty9]; omega)
        (by rw [emptyCount_empty9]) noLose_empty_X
    · exact noLoseF_sound heo h9 (by rw [emptyCount_empty9]; omega)
        (by rw [emptyCount_empty9]) noLose_empty_O
    · exact absurd rfl heo
  | engineMove hg hnone hidx ih =>
    rename_i squares i
    obtain ⟨h9, -, hval⟩ := ih
    have hiav : i ∈ getAvailableMoves squares := minimax_index_mem hidx
    have h3 : getAvailableMoves squares ≠ [] := List.ne_nil_of_mem hiav
    obtain ⟨r, pre, post, hres, hsplit, hpre, hpost⟩ :=
      minimax_select_max (by simp [hnone]) (by simp [hnone]) h3 rfl
    have hri : r.index = i := by
      rw [hres] at hidx
      exact Option.some.inj hidx
    have hrmem := mem_explored.mp (mem_of_decomp hsplit)
    have hs1 : 0 ≤ (minimax (placeMark squares i e) o e o 1).score := by
      have h0 := hval hnone
      rw [hres] at h0
      have hsc := hrmem.2
      rw [if_pos rfl] at hsc
      rw [← hri]
      simp only [Nat.zero_add] at hsc
      rw [← hsc]
      exact h0
    have h9' : (placeMark squares i e).length = 9 := by
      rw [length_placeMark, h9]
    have hdec := emptyCount_placeMark e hiav
    have hle := emptyCount_le_length squares
    have hs0 := score_nonneg_shift heo h9' (by omega) hs1
    refine ⟨h9', ?_, fun _ => hs0⟩
    cases hw' : calculateWinner (placeMark squares i e) with
    | none => exact Or.inl rfl
    | some w =>
      rcases Mark.eq_or_eq w e o heo with rfl | rfl
      · exact Or.inr rfl
      · rw [minimax_winner_hu _ _ (by simp [hw', Ne.symm heo]) hw'] at hs1
        exact absurd hs1 (by norm_num)
  | oppMove hg hnone hmem ih =>
    rename_i squares i
    obtain ⟨h9, -, hval⟩ := ih
    have h3 : getAvailableMoves squares ≠ [] := List.ne_nil_of_mem hmem
    obtain ⟨r, pre, post, hres, hsplit, hpre, hpost⟩ :=
      minimax_select_min (by simp [hnone]) (by simp [hnone]) h3 (Ne.symm heo)
    have hs1 : 0 ≤ (minimax (placeMark squares i o) e e o 1).score := by
      have h0 := hval hnone
      rw [hres] at h0
      have hmem' : MoveScore.mk i (minimax (placeMark squares i o)
          (if o = e then o else e) e o 1).score ∈ explored squares o e o 0 :=
        mem_explored.mpr ⟨hmem, rfl⟩
      have hge := score_ge_of_decomp hsplit hpre hpost _ hmem'
      have := le_trans h0 hge
      simpa [if_neg (Ne.symm heo)] using this
    have h9' : (placeMark squares i o).length = 9 := by
      rw [length_placeMark, h9]
    have hdec := emptyCount_placeMark o hmem
    have hle := emptyCount_le_length squares
    have hs0 := score_nonneg_shift heo h9' (by omega) hs1
    refine ⟨h9', ?_, fun _ => hs0⟩
    cases hw' : calculateWinner (placeMark squares i o) with
    | none => exact Or.inl rfl
    | some w =>
      rcases Mark.eq_or_eq w e o heo with rfl | rfl
      · exact Or.inr rfl
      · rw [minimax_winner_hu _ _ (by simp [hw', Ne.symm heo]) hw'] at hs1
        exact absurd hs1 (by norm_num)

/-- Engine-vs-engine play is a special case of an engine-controlled game in
which X is the engine side. -/
theorem selfPlay_engineGame_X {squares : Board} {m : Mark}
    (h : SelfPlay squares m) : EngineGame Mark.X Mark.O squares m := by
  induction h with
  | start => exact EngineGame.start
  | stepX hg hnone hidx ih => exact EngineGame.engineMove ih hnone hidx
  | stepO hg hnone hidx ih =>
    exact EngineGame.oppMove ih hnone (minimax_index_mem hidx)

/-- Engine-vs-engine play is a special case of an engine-controlled game in
which O is the engine side. -/
theorem selfPlay_engineGame_O {squares : Board} {m : Mark}
    (h : SelfPlay squares m) : EngineGame Mark.O Mark.X squares m := by
  induction h with
  | start => exact EngineGame.start
  | stepX hg hnone hidx ih =>
    exact EngineGame.oppMove ih hnone (minimax_index_mem hidx)
  | stepO hg hnone hidx ih => exact EngineGame.engineMove ih hnone hidx

theorem engineGame_no_opp_win {e o : Mark} (heo : e ≠ o) {squares : Board}
    {m : Mark} (h : EngineGame e o squares m) :
    calculateWinner squares = none ∨ calculateWinner squares = some e :=
  (engineGame_inv heo h).2.1

theorem selfPlay_no_win {squares : Board} {m : Mark} (h : SelfPlay squares m) :
    calculateWinner squares = none := by
  rcases engineGame_no_opp_win (by decide) (selfPlay_engineGame_X h) with hX | hX
  · exact hX
  · rcases engineGame_no_opp_win (by decide) (selfPlay_engineGame_O h) with hO | hO
    · exact hO
    · rw [hX] at hO
      exact absurd (Option.some.inj hO) (by decide)


/-! ### Evaluation of the blocking scenario, one child search at a time -/

set_option maxRecDepth 100000 in
theorem c8_child_2 :
    (minimax (placeMark blockBoard 2 Mark.O) Mark.X Mark.O Mark.X 1).score =
      0 := by
  decide

set_option maxRecDepth 100000 in
theorem c8_child_3 :
    (minimax (placeMark blockBoard 3 Mark.O) Mark.X Mark.O Mark.X 1).score =
      -8 := by
  decide

set_option maxRecDepth 100000 in
theorem c8_child_5 :
    (minimax (placeMark blockBoard 5 Mark.O) Mark.X Mark.O Mark.X 1).score =
      -8 := by
  decide

set_option maxRecDepth 100000 in
theorem c8_child_6 :
    (minimax (placeMark blockBoard 6 Mark.O) Mark.X Mark.O Mark.X 1).score =
      -8 := by
  decide

set_option maxRecDepth 100000 in
theorem c8_child_7 :
    (minimax (placeMark blockBoard 7 Mark.O) Mark.X Mark.O Mark.X 1).score =
      -8 := by
  decide

set_option maxRecDepth 100000 in
theorem c8_child_8 :
    (minimax (placeMark blockBoard 8 Mark.O) Mark.X Mark.O Mark.X 1).score =
      -8 := by
  decide

theorem c8_explored :
    explored blockBoard Mark.O Mark.O Mark.X 0 =
      [⟨2, 0⟩, ⟨3, -8⟩, ⟨5, -8⟩, ⟨6, -8⟩, ⟨7, -8⟩, ⟨8, -8⟩] := by
  unfold explored
  rw [show getAvailableMoves blockBoard = [2, 3, 5, 6, 7, 8] from by decide]
  show [MoveScore.mk 2 (minimax (placeMark blockBoard 2 Mark.O)
          Mark.X Mark.O Mark.X 1).score,
        MoveScore.mk 3 (minimax (placeMark blockBoard 3 Mark.O)
          Mark.X Mark.O Mark.X 1).score,
        MoveScore.mk 5 (minimax (placeMark blockBoard 5 Mark.O)
          Mark.X Mark.O Mark.X 1).score,
        MoveScore.mk 6 (minimax (placeMark blockBoard 6 Mark.O)
          Mark.X Mark.O Mark.X 1).score,
        MoveScore.mk 7 (minimax (placeMark blockBoard 7 Mark.O)
          Mark.X Mark.O Mark.X 1).score,
        MoveScore.mk 8 (minimax (placeMark blockBoard 8 Mark.O)
          Mark.X Mark.O Mark.X 1).score] = _
  rw [c8_child_2, c8_child_3, c8_child_5, c8_child_6, c8_child_7, c8_child_8]

theorem c8_choose : chooseMove blockBoard Mark.O Mark.X = some 2 := by
  unfold chooseMove
  rw [@minimax_nonterminal blockBoard Mark.O Mark.O Mark.X 0
    (by decide) (by decide) (by decide)]
  rw [if_pos rfl, c8_explored]
  decide

/-! ### The claims -/

/-- C1: in every play-out from the empty board in which one side's moves are
chosen by the engine (minimax with the mover as maximizing player, depth 0)
and the other side plays arbitrary legal moves, no reachable position — in
particular no final one — has a completed line of the engine's opponent:
the winner is either nobody or the engine side. In engine-vs-engine
play-outs nobody ever wins, so every such game ends in a draw. -/
theorem claim_C1 :
    (∀ e o : Mark, e ≠ o → ∀ (squares : Board) (m : Mark),
      EngineGame e o squares m →
      calculateWinner squares = none ∨ calculateWinner squares = some e) ∧
    (∀ (squares : Board) (m : Mark), SelfPlay squares m →
      calculateWinner squares = none) :=
  ⟨fun _ _ heo _ _ h => engineGame_no_opp_win heo h,
   fun _ _ h => selfPlay_no_win h⟩

theorem claim_C1_witness :
    (calculateWinner empty9 = none ∨ calculateWinner empty9 = some Mark.O) ∧
    calculateWinner empty9 = none :=
  ⟨claim_C1.1 Mark.O Mark.X (by decide) empty9 Mark.X EngineGame.start,
   claim_C1.2 empty9 Mark.X SelfPlay.start⟩

/-- C2 (counterexample to the claim as stated): on the board
`[X, X, X, O, O, O, none, none, none]`, the fixed line `(3,4,5)` has all
three cells holding the mark O, yet `calculateWinner` does not return O —
it returns X, the mark of the earlier row in the fixed order. So "returns a
mark if and only if some line holds that same mark" fails in the
right-to-left direction on boards where both players have a complete line. -/
theorem claim_C2_counterexample :
    (3, 4, 5) ∈ lines ∧ lineFilled doubleWinBoard (3, 4, 5) Mark.O ∧
      calculateWinner doubleWinBoard ≠ some Mark.O ∧
      calculateWinner doubleWinBoard = some Mark.X := by
  refine ⟨by decide, by decide, by decide, by decide⟩

/-- C2 (amended): for every board, `calculateWinner` returns `none` iff no
fixed line is complete; whenever it returns a mark, some fixed line is
completely filled with that mark; and whenever some line is filled with `m`
and all complete lines carry the same mark `m` (as in any reachable game),
it returns exactly `some m`. The lines are consulted in the fixed order
rows, columns, diagonals of the `lines` table. -/
theorem claim_C2 :
    ∀ squares : Board,
      (calculateWinner squares = none ↔
        ∀ t ∈ lines, ∀ m, ¬lineFilled squares t m) ∧
      (∀ m, calculateWinner squares = some m →
        ∃ t ∈ lines, lineFilled squares t m) ∧
      (∀ m, (∃ t ∈ lines, lineFilled squares t m) →
        (∀ t' ∈ lines, ∀ m', lineFilled squares t' m' → m' = m) →
        calculateWinner squares = some m) :=
  fun _ => ⟨calculateWinner_none_iff, fun _ h => calculateWinner_some h,
    fun _ h hu => calculateWinner_of_filled h hu⟩

theorem claim_C2_witness :
    calculateWinner [some Mark.X, some Mark.X, some Mark.X,
      none, none, none, none, none, none] = some Mark.X :=
  (claim_C2 _).2.2 Mark.X (by decide) (by decide)

/-- C3: `getAvailableMoves` returns exactly the indices of empty cells, in
strictly ascending order; its length is 9 minus the number of occupied
cells, it never contains an occupied index, and it is empty on a full
board. -/
theorem claim_C3 :
    ∀ squares : Board, squares.length = 9 →
      (∀ i, i ∈ getAvailableMoves squares ↔ i < 9 ∧ cell squares i = none) ∧
      List.Pairwise (· < ·) (getAvailableMoves squares) ∧
      (getAvailableMoves squares).length = 9 - occupiedCount squares ∧
      (occupiedCount squares = 9 → getAvailableMoves squares = []) := by
  intro squares h9
  have h1 := length_getAvailableMoves squares
  have h2 := countP_none_add_occupied squares
  refine ⟨fun i => by rw [mem_getAvailableMoves, h9],
    getAvailableMoves_sorted _, by omega, fun hfull => ?_⟩
  exact List.length_eq_zero.mp (by omega)

theorem claim_C3_witness :
    (2 ∈ getAvailableMoves blockBoard ↔ 2 < 9 ∧ cell blockBoard 2 = none) ∧
    (getAvailableMoves blockBoard).length = 9 - occupiedCount blockBoard :=
  ⟨(claim_C3 blockBoard (by decide)).1 2, (claim_C3 blockBoard (by decide)).2.2.1⟩

/-- C4: at a terminal input `minimax` returns no move index and the exact
base-case score: `10 - depth` when the maximizing player has won,
`depth - 10` when the minimizing player has won, and 0 on a full winnerless
board — with no failure signalled. -/
theorem claim_C4 :
    ∀ (squares : Board) (c ai hu : Mark) (d : Nat),
      (calculateWinner squares = some ai →
        minimax squares c ai hu d = ⟨none, 10 - (d : Int)⟩) ∧
      (ai ≠ hu → calculateWinner squares = some hu →
        minimax squares c ai hu d = ⟨none, (d : Int) - 10⟩) ∧
      (calculateWinner squares = none → getAvailableMoves squares = [] →
        minimax squares c ai hu d = ⟨none, 0⟩) := by
  intro squares c ai hu d
  refine ⟨fun h => minimax_winner_ai _ _ _ h,
    fun hne h => minimax_winner_hu _ _ (by rw [h]; simp [Ne.symm hne]) h,
    fun h1 h2 => minimax_draw _ _ _ _ (by simp [h1]) (by simp [h1]) h2⟩

theorem claim_C4_witness :
    minimax [some Mark.X, some Mark.X, some Mark.X,
      none, none, none, none, none, none] Mark.O Mark.X Mark.O 3 =
      ⟨none, 7⟩ ∧
    minimax [some Mark.X, some Mark.X, some Mark.X,
      none, none, none, none, none, none] Mark.O Mark.O Mark.X 3 =
      ⟨none, -7⟩ ∧
    minimax [some Mark.X, some Mark.O, some Mark.X,
      some Mark.O, some Mark.O, some Mark.X,
      some Mark.X, some Mark.X, some Mark.O] Mark.X Mark.X Mark.O 5 =
      ⟨none, 0⟩ :=
  ⟨(claim_C4 _ _ _ _ _).1 (by decide),
   (claim_C4 _ _ _ _ _).2.1 (by decide) (by decide),
   (claim_C4 _ _ _ _ _).2.2 (by decide) (by decide)⟩

/-- C5: on a non-terminal board `minimax` returns the (index, score) record
of the move with the strictly greatest explored score when the mover is the
maximizing player, and with the strictly least score otherwise; among
equal-scoring moves the first one in the explored order wins, and the
explored order is exactly the ascending order of `getAvailableMoves`. -/
theorem claim_C5 :
    ∀ (squares : Board) (c ai hu : Mark) (d : Nat),
      calculateWinner squares ≠ some ai →
      calculateWinner squares ≠ some hu →
      getAvailableMoves squares ≠ [] →
      (explored squares c ai hu d).map MoveScore.index =
        getAvailableMoves squares ∧
      ∃ r pre post,
        minimax squares c ai hu d = ⟨some r.index, r.score⟩ ∧
        explored squares c ai hu d = pre ++ r :: post ∧
        (if c = ai then
          (∀ m ∈ pre, m.score < r.score) ∧ (∀ m ∈ post, m.score ≤ r.score)
        else
          (∀ m ∈ pre, r.score < m.score) ∧ (∀ m ∈ post, r.score ≤ m.score)) := by
  intro squares c ai hu d h1 h2 h3
  constructor
  · unfold explored
    rw [List.map_map]
    exact List.map_id _
  · by_cases hc : c = ai
    · obtain ⟨r, pre, post, hres, hsplit, hpre, hpost⟩ :=
        minimax_select_max h1 h2 h3 hc
      exact ⟨r, pre, post, hres, hsplit, by rw [if_pos hc]; exact ⟨hpre, hpost⟩⟩
    · obtain ⟨r, pre, post, hres, hsplit, hpre, hpost⟩ :=
        minimax_select_min h1 h2 h3 hc
      exact ⟨r, pre, post, hres, hsplit, by rw [if_neg hc]; exact ⟨hpre, hpost⟩⟩

theorem claim_C5_witness :
    (explored blockBoard Mark.O Mark.O Mark.X 0).map MoveScore.index =
      getAvailableMoves blockBoard ∧
    ∃ r pre post,
      minimax blockBoard Mark.O Mark.O Mark.X 0 = ⟨some r.index, r.score⟩ ∧
      explored blockBoard Mark.O Mark.O Mark.X 0 = pre ++ r :: post ∧
      (if Mark.O = Mark.O then
        (∀ m ∈ pre, m.score < r.score) ∧ (∀ m ∈ post, m.score ≤ r.score)
      else
        (∀ m ∈ pre, r.score < m.score) ∧ (∀ m ∈ post, r.score ≤ m.score)) :=
  claim_C5 blockBoard Mark.O Mark.O Mark.X 0 (by decide) (by decide) (by decide)

/-- C6: whenever `chooseMove` returns an index, that index is an in-range
empty cell of the input board. -/
theorem claim_C6 :
    ∀ (squares : Board) (aiMark humanMark : Mark) (i : Nat),
      chooseMove squares aiMark humanMark = some i →
      i < squares.length ∧ cell squares i = none := by
  intro squares ai hu i h
  exact mem_getAvailableMoves.mp (minimax_index_mem h)

theorem claim_C6_witness :
    8 < ([some Mark.X, some Mark.O, some Mark.X,
      some Mark.O, some Mark.X, some Mark.O,
      some Mark.O, some Mark.X, none] : Board).length ∧
    cell [some Mark.X, some Mark.O, some Mark.X,
      some Mark.O, some Mark.X, some Mark.O,
      some Mark.O, some Mark.X, none] 8 = none :=
  claim_C6 _ Mark.O Mark.X 8 (by decide)

/-- C7: from a board on which every legal engine move leads, under optimal
play by both sides (the play-out that follows the minimax choices), to a
win of the opponent, `chooseMove` selects a move whose loss comes after the
greatest number of remaining plies among all available moves. -/
theorem claim_C7 :
    ∀ (squares : Board) (ai hu : Mark), ai ≠ hu →
      calculateWinner squares = none →
      getAvailableMoves squares ≠ [] →
      (∀ i ∈ getAvailableMoves squares,
        (playF (emptyCount squares) (placeMark squares i ai) hu ai hu 1).1 =
          some hu) →
      ∃ i0, chooseMove squares ai hu = some i0 ∧
        i0 ∈ getAvailableMoves squares ∧
        ∀ i ∈ getAvailableMoves squares,
          (playF (emptyCount squares) (placeMark squares i ai) hu ai hu 1).2 ≤
          (playF (emptyCount squares) (placeMark squares i0 ai) hu ai hu 1).2 := by
  intro squares ai hu hai hw h3 hloss
  obtain ⟨r, pre, post, hres, hsplit, hpre, hpost⟩ :=
    minimax_select_max (by simp [hw]) (by simp [hw]) h3 rfl
  have hrmem := mem_explored.mp (mem_of_decomp hsplit)
  have hscore : ∀ j ∈ getAvailableMoves squares,
      (minimax (placeMark squares j ai) hu ai hu 1).score =
        (1 + ((playF (emptyCount squares)
          (placeMark squares j ai) hu ai hu 1).2 : Int)) - 10 := by
    intro j hj
    have hdec := emptyCount_placeMark ai hj
    have heval := @minimax_score_eq_playF ai hu hai (emptyCount squares)
      (placeMark squares j ai) hu 1 (by omega)
    rw [heval]
    unfold outcomeScore
    rw [hloss j hj]
    rw [if_neg (by simp [Ne.symm hai]), if_pos rfl]
    omega
  refine ⟨r.index, by unfold chooseMove; rw [hres], hrmem.1, ?_⟩
  intro i hi
  have hmem : MoveScore.mk i (minimax (placeMark squares i ai)
      (if ai = ai then hu else ai) ai hu 1).score ∈
      explored squares ai ai hu 0 :=
    mem_explored.mpr ⟨hi, rfl⟩
  have hle := score_le_of_decomp hsplit hpre hpost _ hmem
  have hr2 := hrmem.2
  rw [if_pos rfl] at hr2
  simp only [Nat.zero_add] at hr2
  have h1 := hscore i hi
  have h2 := hscore r.index hrmem.1
  rw [if_pos rfl] at hle
  simp only [] at hle
  rw [h1] at hle
  rw [hr2, h2] at hle
  omega

theorem claim_C7_witness :
    ∃ i0, chooseMove [some Mark.X, some Mark.X, none,
        none, some Mark.O, none,
        some Mark.X, none, some Mark.O] Mark.O Mark.X = some i0 ∧
      i0 ∈ getAvailableMoves [some Mark.X, some Mark.X, none,
        none, some Mark.O, none,
        some Mark.X, none, some Mark.O] ∧
      ∀ i ∈ getAvailableMoves [some Mark.X, some Mark.X, none,
        none, some Mark.O, none,
        some Mark.X, none, some Mark.O],
        (playF (emptyCount [some Mark.X, some Mark.X, none,
          none, some Mark.O, none,
          some Mark.X, none, some Mark.O])
          (placeMark [some Mark.X, some Mark.X, none,
            none, some Mark.O, none,
            some Mark.X, none, some Mark.O] i Mark.O) Mark.X Mark.O Mark.X 1).2 ≤
        (playF (emptyCount [some Mark.X, some Mark.X, none,
          none, some Mark.O, none,
          some Mark.X, none, some Mark.O])
          (placeMark [some Mark.X, some Mark.X, none,
            none, some Mark.O, none,
            some Mark.X, none, some Mark.O] i0 Mark.O) Mark.X Mark.O Mark.X 1).2 :=
  claim_C7 _ Mark.O Mark.X (by decide) (by decide) (by decide) (by decide)

/-- C8: on the concrete board `[X, X, none, none, O, none, none, none,
none]` with the computer playing O, the winner is `none`, the legal moves
are exactly `[2, 3, 5, 6, 7, 8]`, and the chosen move is index 2, blocking
X's immediate win. -/
theorem claim_C8 :
    calculateWinner blockBoard = none ∧
    getAvailableMoves blockBoard = [2, 3, 5, 6, 7, 8] ∧
    chooseMove blockBoard Mark.O Mark.X = some 2 := by
  refine ⟨by decide, by decide, c8_choose⟩

/-- C9: the `minimax` recursion terminates: each recursive call strictly
decreases the number of empty cells, and once the fuel of the embedding
exceeds that number the result no longer depends on it, so `minimax`
computes the fixed point reached at fuel `emptyCount + 1`. -/
theorem claim_C9 :
    (∀ (squares : Board) (i : Nat) (m : Mark), i ∈ getAvailableMoves squares →
      emptyCount (placeMark squares i m) < emptyCount squares) ∧
    (∀ (f g : Nat) (squares : Board) (c ai hu : Mark) (d : Nat),
      emptyCount squares < f → emptyCount squares < g →
      minimaxF f squares c ai hu d = minimaxF g squares c ai hu d) ∧
    (∀ (squares : Board) (c ai hu : Mark) (d : Nat),
      minimax squares c ai hu d =
        minimaxF (emptyCount squares + 1) squares c ai hu d) := by
  refine ⟨fun squares i m h => ?_, fun f g squares c ai hu d hf hg => ?_,
    fun squares c ai hu d => ?_⟩
  · have := emptyCount_placeMark m h
    omega
  · exact minimaxF_congr_fuel hf hg
  · exact minimax_eq_minimaxF (Nat.lt_succ_self _)

theorem claim_C9_witness :
    emptyCount (placeMark blockBoard 2 Mark.O) < emptyCount blockBoard ∧
    minimaxF 7 blockBoard Mark.O Mark.O Mark.X 0 =
      minimaxF 8 blockBoard Mark.O Mark.O Mark.X 0 :=
  ⟨claim_C9.1 blockBoard 2 Mark.O (by decide),
   claim_C9.2.1 7 8 blockBoard Mark.O Mark.O Mark.X 0 (by decide) (by decide)⟩

/-- C10: occupied cells are stable: the click handler is the identity when
the game is over, the clicked cell is occupied, or it is the AI's turn in AI
mode; neither the click handler nor the AI effect ever clears or overwrites
an occupied cell, and the AI effect only ever writes to a cell that is
empty when it fires. -/
theorem claim_C10 :
    (∀ (s : AppState) (i : Nat), s.gameOver = true →
      handleSquareClick s i = s) ∧
    (∀ (s : AppState) (i : Nat), cell s.squares i ≠ none →
      handleSquareClick s i = s) ∧
    (∀ (s : AppState) (i : Nat), s.mode = Mode.AI → s.xIsNext = false →
      handleSquareClick s i = s) ∧
    (∀ (s : AppState) (i j : Nat) (m : Mark), cell s.squares j = some m →
      cell (handleSquareClick s i).squares j = some m) ∧
    (∀ (s : AppState) (j : Nat) (m : Mark), cell s.squares j = some m →
      cell (aiMoveEffect s).squares j = some m) ∧
    (∀ (s : AppState) (j : Nat),
      cell (aiMoveEffect s).squares j ≠ cell s.squares j →
      cell s.squares j = none) := by
  refine ⟨?_, ?_, ?_, ?_, ?_, ?_⟩
  · intro s i h
    unfold handleSquareClick
    rw [if_pos (Or.inl h)]
  · intro s i h
    unfold handleSquareClick
    rw [if_pos (Or.inr (Or.inl h))]
  · intro s i h1 h2
    unfold handleSquareClick
    rw [if_pos (Or.inr (Or.inr ⟨h1, h2⟩))]
  · intro s i j m h
    unfold handleSquareClick
    split_ifs with hguard
    · exact h
    · push_neg at hguard
      show cell (placeMark s.squares i (currentPlayerOf s)) j = some m
      rcases eq_or_ne i j with rfl | hne
      · rw [hguard.2.1] at h
        exact absurd h (by simp)
      · rw [cell_placeMark_ne _ _ hne]
        exact h
  · intro s j m h
    unfold aiMoveEffect
    split_ifs with hguard
    · split
      · split_ifs with hcell
        · show cell (placeMark s.squares _ Mark.O) j = some m
          rename_i i _
          rcases eq_or_ne i j with rfl | hne
          · rw [hcell] at h
            exact absurd h (by simp)
          · rw [cell_placeMark_ne _ _ hne]
            exact h
        · exact h
      · exact h
    · exact h
  · intro s j hne
    by_contra hocc
    apply hne
    unfold aiMoveEffect
    split_ifs with hguard
    · split
      · split_ifs with hcell
        · show cell (placeMark s.squares _ Mark.O) j = cell s.squares j
          rename_i i _
          rcases eq_or_ne i j with rfl | hij
          · exact absurd hcell hocc
          · rw [cell_placeMark_ne _ _ hij]
        · rfl
      · rfl
    · rfl

theorem claim_C10_witness :
    handleSquareClick ⟨empty9, true, Mode.AI, ⟨0, 0, 0⟩, true⟩ 0 =
      ⟨empty9, true, Mode.AI, ⟨0, 0, 0⟩, true⟩ ∧
    cell (aiMoveEffect ⟨blockBoard, false, Mode.AI, ⟨0, 0, 0⟩, false⟩).squares
      0 = some Mark.X :=
  ⟨claim_C10.1 _ 0 rfl, claim_C10.2.2.2.2.1 _ 0 Mark.X (by decide)⟩

end TicTacToe
